import Mathlib

/-!
Verification of the py-num-bench native kernels.

This file gives a shallow embedding of the two Rust FFI kernels of the
repository and proves the specification claims about them.

Source files embedded:
* src/py_num_bench/implementations/rust/sieve_rs/src/lib.rs
  (function sieve_rs : Sieve of Eratosthenes writing into a caller buffer)
* src/py_num_bench/implementations/rust/trapezoid_rs/src/lib.rs
  (function trapezoid_rs : trapezoid rule for f x = x^2)

Modelling conventions:
* Machine integers are embedded as Nat / Int.  The i32-to-usize cast of
  the trapezoid kernel is embedded exactly, as reduction modulo 2^64.
* The transient boolean vector vec![true; limit + 1] is a List Bool;
  reads are getD (total), writes are List.set (no-op out of bounds).
  Theorem sieve_rs_accesses_in_bounds shows every index the kernel uses
  is inside the vector, so the total model agrees with the panicking
  Rust indexing.
* The caller-supplied output buffer (a raw i32 pointer in Rust) is a
  total function Nat -> Int; a write stores a value at one index.
* f64 arithmetic of the trapezoid kernel is embedded as exact rational
  arithmetic, keeping the source's exact accumulation order.
* The f64 square root in the marking-loop bound
  (limit as f64).sqrt() as usize
  is embedded as the integer square root (sieveBound below, an
  executable floor square root).  Theorem sieve_float_bound_exact
  justifies this: any IEEE-754 correctly rounded double square root of
  an i32 value, truncated to an integer, equals the integer square root.
-/

namespace PyNumBench

/-- Rust range (start..=stop).step_by step as a list (step assumed positive;
the kernel only uses step 1 and step p with p at least 2). -/
def stepRange (start stop step : ℕ) : List ℕ :=
  if stop < start then [] else List.range' start ((stop - start) / step + 1) step

/-- The freshly allocated table: vec![true; limit + 1]. -/
def sieveInit (limit : ℕ) : List Bool :=
  List.replicate (limit + 1) true

/-- Inner marking loop of sieve_rs:
for multiple in (p * p..=limit).step_by(p) { is_prime[multiple] = false; } -/
def markMults (limit p : ℕ) (t : List Bool) : List Bool :=
  (stepRange (p * p) limit p).foldl (fun u i => u.set i false) t

/-- One iteration of the outer marking loop of sieve_rs:
if is_prime[p] { mark the multiples of p }. -/
def markPass (limit : ℕ) (t : List Bool) (p : ℕ) : List Bool :=
  if t.getD p false then markMults limit p t else t

/-- The sieve table after the whole marking pass, with an explicit upper
bound B for the candidate loop for p in 2..=B. -/
def sieveTableB (limit B : ℕ) : List Bool :=
  (stepRange 2 B 1).foldl (markPass limit) (sieveInit limit)

/-- Executable floor square root: the largest p with p * p <= limit
(0 for limit = 0).  This embeds the loop bound
(limit as f64).sqrt() as usize of sieve_rs; theorem
sieve_float_bound_exact proves that the rounded f64 square root of any
i32 value truncates to exactly this integer square root. -/
def sieveBound (limit : ℕ) : ℕ :=
  (List.range (limit + 1)).foldl (fun acc p => if p * p ≤ limit then p else acc) 0

/-- The sieve table of sieve_rs after the marking pass. -/
def sieveTable (limit : ℕ) : List Bool :=
  sieveTableB limit (sieveBound limit)

/-- The sieve table produced by the integer-only bound test variant:
the candidate loop runs over exactly those p in 2..=limit with
p * p <= limit (the loop "for p while p * p <= limit"). -/
def sieveTablePP (limit : ℕ) : List Bool :=
  ((stepRange 2 limit 1).filter (fun p => decide (p * p ≤ limit))).foldl
    (markPass limit) (sieveInit limit)

/-- One iteration of the collection loop of sieve_rs: state is
(count, buffer); if is_prime[i] { *primes_out.add(count) = i as i32;
count += 1; }. -/
def collectStep (t : List Bool) (st : ℕ × (ℕ → ℤ)) (i : ℕ) : ℕ × (ℕ → ℤ) :=
  if t.getD i false then
    (st.1 + 1, fun j => if j = st.1 then (i : ℤ) else st.2 j)
  else st

/-- The FFI kernel sieve_rs.  Input n : i32, the caller's buffer as a
function from slot index to stored value.  Returns the count written and
the updated buffer. -/
def sieve_rs (n : ℤ) (buf : ℕ → ℤ) : ℤ × (ℕ → ℤ) :=
  if n < 2 then (0, buf)
  else
    let limit := n.toNat
    let t := sieveTable limit
    let r := (stepRange 2 limit 1).foldl (collectStep t) (0, buf)
    ((r.1 : ℤ), r.2)

/-- Every index at which sieve_rs touches its boolean table, in order:
the candidate reads is_prime[p], the (superset of) multiple writes
is_prime[multiple], and the collection reads is_prime[i].  The multiple
list ignores the is_prime[p] guard, so it is a superset of the writes
actually performed; for the in-bounds theorem a superset is conservative. -/
def sieveAccesses (n : ℤ) : List ℕ :=
  if n < 2 then []
  else
    let limit := n.toNat
    let B := sieveBound limit
    stepRange 2 B 1 ++
      ((stepRange 2 B 1).map (fun p => stepRange (p * p) limit p)).flatten ++
      stepRange 2 limit 1

/-- The i32-to-usize cast of Rust (sign extension then reinterpretation):
reduction modulo 2 ^ 64. -/
def usizeOfInt (n : ℤ) : ℕ :=
  (n % 2 ^ 64).toNat

/-- Body of trapezoid_rs for a nonzero subdivision count m:
let h = (b - a) / m; sum starts at 0.5 * (a * a + b * b); the loop
for i in 1..m adds x * x with x = a + i as f64 * h; result is sum * h. -/
def trapezoidLoop (a b : ℚ) (m : ℕ) : ℚ :=
  let h := (b - a) / (m : ℚ)
  ((List.range' 1 (m - 1) 1).foldl
      (fun s i => s + (a + (i : ℚ) * h) * (a + (i : ℚ) * h))
      (1 / 2 * (a * a + b * b))) * h

/-- The FFI kernel trapezoid_rs.  The f64 arguments are embedded as
exact rationals; n : i32 is cast to usize exactly as the source does. -/
def trapezoid_rs (a b : ℚ) (n : ℤ) : ℚ :=
  let m := usizeOfInt n
  if m = 0 then 0 else trapezoidLoop a b m

/-- The trapezoid algorithm exactly as the specification words it
("h = (b-a)/n.  Accumulate s = 0.5*(f(a)+f(b)) where f(x)=x^2.  For each
interior node index i from 1 to n-1 inclusive, let x = a + i*h, add f(x)
to s.  Final result = s*h."), for comparison with trapezoid_rs. -/
def trapezoid_spec (a b : ℚ) (n : ℕ) : ℚ :=
  let h := (b - a) / (n : ℚ)
  let f : ℚ → ℚ := fun x => x * x
  let s0 := 1 / 2 * (f a + f b)
  let s := (List.range' 1 (n - 1) 1).foldl (fun s i => s + f (a + (i : ℚ) * h)) s0
  s * h

/-- An index i was eliminated by some already-found prime below q:
the invariant of the outer marking loop. -/
def markedBelow (q i : ℕ) : Prop :=
  ∃ p, Nat.Prime p ∧ p < q ∧ p * p ≤ i ∧ p ∣ i

/-- The ascending list of primes in the interval from 2 to limit:
the reference value the sieve output is compared against. -/
def primesList (limit : ℕ) : List ℕ :=
  (List.range' 2 (limit - 1)).filter (fun i => decide (Nat.Prime i))

/-! ### Basic list lemmas -/

theorem getD_set {α : Type} (l : List α) (i j : ℕ) (x d : α) :
    (l.set i x).getD j d = if i = j ∧ i < l.length then x else l.getD j d := by
  induction l generalizing i j with
  | nil => simp [List.getD]
  | cons a l ih =>
    cases i with
    | zero =>
      cases j with
      | zero => simp
      | succ k => simp [List.getD]
    | succ i' =>
      cases j with
      | zero => simp [List.getD]
      | succ k =>
        have : (a :: l).set (i' + 1) x = a :: l.set i' x := rfl
        rw [this]
        have h1 : (a :: l.set i' x).getD (k + 1) d = (l.set i' x).getD k d := rfl
        have h2 : (a :: l).getD (k + 1) d = l.getD k d := rfl
        rw [h1, h2, ih, List.length_cons]
        by_cases hik : i' = k ∧ i' < l.length
        · rw [if_pos hik, if_pos (by omega)]
        · rw [if_neg hik, if_neg (by rw [not_and_or] at hik ⊢; omega)]

theorem getD_replicate {α : Type} (n i : ℕ) (a d : α) (h : i < n) :
    (List.replicate n a).getD i d = a := by
  induction n generalizing i with
  | zero => omega
  | succ m ih =>
    cases i with
    | zero => rfl
    | succ k =>
      have : (List.replicate (m + 1) a).getD (k + 1) d = (List.replicate m a).getD k d := rfl
      rw [this, ih k (by omega)]

theorem foldl_set_length (L : List ℕ) (t : List Bool) :
    (L.foldl (fun u i => u.set i false) t).length = t.length := by
  induction L generalizing t with
  | nil => rfl
  | cons a L ih => rw [List.foldl_cons, ih, List.length_set]

theorem foldl_set_getD (L : List ℕ) (t : List Bool) (i : ℕ) :
    (L.foldl (fun u i => u.set i false) t).getD i false
      = if i ∈ L ∧ i < t.length then false else t.getD i false := by
  induction L generalizing t with
  | nil => simp
  | cons a L ih =>
    rw [List.foldl_cons, ih, List.length_set, getD_set]
    split_ifs <;> simp_all [List.mem_cons] <;> omega

theorem mem_stepRange {s e k i : ℕ} (hk : 0 < k) :
    i ∈ stepRange s e k ↔ s ≤ i ∧ i ≤ e ∧ k ∣ (i - s) := by
  unfold stepRange
  split
  · simp only [List.not_mem_nil, false_iff]
    omega
  · rename_i hes
    rw [List.mem_range']
    constructor
    · rintro ⟨t, ht, rfl⟩
      have h1 : k * t ≤ k * ((e - s) / k) := Nat.mul_le_mul_left k (by omega)
      have h2 : k * ((e - s) / k) ≤ e - s := by
        rw [Nat.mul_comm]; exact Nat.div_mul_le_self _ _
      refine ⟨by omega, by omega, t, by omega⟩
    · rintro ⟨h1, h2, t, ht⟩
      have h3 : t ≤ (e - s) / k :=
        (Nat.le_div_iff_mul_le hk).mpr (by rw [Nat.mul_comm]; omega)
      exact ⟨t, by omega, by omega⟩

theorem stepRange_one (s B : ℕ) : stepRange s B 1 = List.range' s (B + 1 - s) := by
  unfold stepRange
  split
  · rename_i h
    rw [show B + 1 - s = 0 by omega]
    rfl
  · rename_i h
    rw [Nat.div_one, show B - s + 1 = B + 1 - s by omega]

/-! ### The executable floor square root equals Nat.sqrt -/

theorem sieveBound_aux_low (limit : ℕ) :
    ∀ N acc, N ≤ Nat.sqrt limit + 1 →
      (List.range N).foldl (fun acc p => if p * p ≤ limit then p else acc) acc
        = if N = 0 then acc else N - 1 := by
  intro N
  induction N with
  | zero => intro acc _; rfl
  | succ M ih =>
    intro acc hM
    rw [List.range_succ, List.foldl_append, ih acc (by omega)]
    have hMle : M * M ≤ limit := Nat.le_sqrt.mp (by omega)
    simp [hMle]

theorem sieveBound_aux_high (limit : ℕ) :
    ∀ N, Nat.sqrt limit + 1 ≤ N →
      (List.range N).foldl (fun acc p => if p * p ≤ limit then p else acc) 0
        = Nat.sqrt limit := by
  intro N
  induction N with
  | zero => omega
  | succ M ih =>
    intro hM
    by_cases hcase : Nat.sqrt limit + 1 ≤ M
    · rw [List.range_succ, List.foldl_append, ih hcase]
      have : limit < M * M := Nat.sqrt_lt.mp (by omega)
      simp [List.foldl_cons, Nat.not_le.mpr this]
    · have hMeq : M = Nat.sqrt limit := by omega
      rw [List.range_succ, List.foldl_append,
        sieveBound_aux_low limit M 0 (by omega)]
      have hle : M * M ≤ limit := by
        rw [hMeq]; exact Nat.sqrt_le limit
      show (if M * M ≤ limit then M else if M = 0 then 0 else M - 1) = Nat.sqrt limit
      rw [if_pos hle, hMeq]

theorem sieveBound_eq (limit : ℕ) : sieveBound limit = Nat.sqrt limit :=
  sieveBound_aux_high limit (limit + 1)
    (by have := Nat.sqrt_le_self limit; omega)

/-! ### The marking pass -/

theorem markMults_length (limit p : ℕ) (t : List Bool) :
    (markMults limit p t).length = t.length :=
  foldl_set_length _ _

theorem markPass_length (limit p : ℕ) (t : List Bool) :
    (markPass limit t p).length = t.length := by
  unfold markPass
  split
  · exact markMults_length _ _ _
  · rfl

theorem foldl_markPass_length (limit : ℕ) (L : List ℕ) (t : List Bool) :
    (L.foldl (markPass limit) t).length = t.length := by
  induction L generalizing t with
  | nil => rfl
  | cons a L ih => rw [List.foldl_cons, ih, markPass_length]

theorem sieveInit_length (limit : ℕ) : (sieveInit limit).length = limit + 1 :=
  List.length_replicate _ _

theorem sieveTableB_length (limit B : ℕ) : (sieveTableB limit B).length = limit + 1 := by
  unfold sieveTableB
  rw [foldl_markPass_length, sieveInit_length]

theorem sieveTable_length (limit : ℕ) : (sieveTable limit).length = limit + 1 :=
  sieveTableB_length _ _

theorem dvd_sub_sq_iff {p i : ℕ} (h : p * p ≤ i) : p ∣ (i - p * p) ↔ p ∣ i := by
  constructor
  · rintro ⟨t, ht⟩
    have hdist : p * (p + t) = p * p + p * t := Nat.mul_add p p t
    exact ⟨p + t, by omega⟩
  · rintro ⟨t, ht⟩
    have hpt : p ≤ t := by
      rcases Nat.eq_zero_or_pos p with hp0 | hp0
      · omega
      · exact Nat.le_of_mul_le_mul_left (by omega) hp0
    have hsplit : p * t = p * (t - p) + p * p := by
      rw [← Nat.mul_add]
      congr 1
      omega
    exact ⟨t - p, by omega⟩

theorem markMults_getD (limit p : ℕ) (t : List Bool) (hp : 0 < p) (i : ℕ) :
    (markMults limit p t).getD i false
      = if (p * p ≤ i ∧ i ≤ limit ∧ p ∣ i) ∧ i < t.length then false
        else t.getD i false := by
  unfold markMults
  rw [foldl_set_getD]
  have hmem : i ∈ stepRange (p * p) limit p ↔ p * p ≤ i ∧ i ≤ limit ∧ p ∣ i := by
    rw [mem_stepRange hp]
    constructor
    · rintro ⟨h1, h2, h3⟩
      exact ⟨h1, h2, (dvd_sub_sq_iff h1).mp h3⟩
    · rintro ⟨h1, h2, h3⟩
      exact ⟨h1, h2, (dvd_sub_sq_iff h1).mpr h3⟩
  rw [if_congr (and_congr_left' hmem) rfl rfl]

/-! ### The outer-loop invariant and the prime characterization -/

theorem marked_self_iff (p : ℕ) (hp : 2 ≤ p) : markedBelow p p ↔ ¬ Nat.Prime p := by
  constructor
  · rintro ⟨q, hq, hlt, hsq, hdvd⟩ hprime
    rcases (Nat.Prime.eq_one_or_self_of_dvd hprime q hdvd) with h1 | h1
    · exact absurd h1 (Nat.Prime.ne_one hq)
    · omega
  · intro hnp
    refine ⟨p.minFac, Nat.minFac_prime (by omega), ?_, ?_, Nat.minFac_dvd p⟩
    · have hsq : p.minFac * p.minFac ≤ p := by
        have := Nat.minFac_sq_le_self (by omega : 0 < p) hnp
        simpa [Nat.pow_two] using this
      have h2q : 2 ≤ p.minFac := (Nat.minFac_prime (by omega : p ≠ 1)).two_le
      have : 2 * p.minFac ≤ p.minFac * p.minFac := by
        exact Nat.mul_le_mul_right _ h2q
      omega
    · have := Nat.minFac_sq_le_self (by omega : 0 < p) hnp
      simpa [Nat.pow_two] using this

theorem sieve_invariant (limit : ℕ) :
    ∀ j, 2 + j ≤ Nat.sqrt limit + 1 →
      ∀ i, i ≤ limit →
        (((List.range' 2 j).foldl (markPass limit) (sieveInit limit)).getD i false = false
          ↔ markedBelow (2 + j) i) := by
  intro j
  induction j with
  | zero =>
    intro _ i hi
    simp only [List.range'_zero, List.foldl_nil]
    unfold sieveInit
    rw [getD_replicate (limit + 1) i true false (by omega)]
    constructor
    · intro h
      exact absurd h (by simp)
    · rintro ⟨p, hp, hlt, _, _⟩
      have := hp.two_le
      omega
  | succ j ih =>
    intro hj i hi
    have hj' : 2 + j ≤ Nat.sqrt limit + 1 := by omega
    set p := 2 + j with hpdef
    set T := (List.range' 2 j).foldl (markPass limit) (sieveInit limit) with hTdef
    have hTlen : T.length = limit + 1 := by
      rw [hTdef, foldl_markPass_length, sieveInit_length]
    have hplimit : p ≤ limit := by
      have := Nat.sqrt_le_self limit
      omega
    have hconcat : List.range' 2 (j + 1) = List.range' 2 j ++ [p] :=
      List.range'_1_concat 2 j
    rw [hconcat, List.foldl_append, List.foldl_cons, List.foldl_nil, ← hTdef]
    have hTchar := ih hj'
    have hTp := hTchar p hplimit
    unfold markPass
    by_cases hread : T.getD p false = true
    · -- the table still holds true at p: p survived all smaller primes, so p is prime
      have hpprime : Nat.Prime p := by
        by_contra hnp
        have hmk : markedBelow p p := (marked_self_iff p (by omega)).mpr hnp
        have : T.getD p false = false := hTp.mpr hmk
        rw [hread] at this
        exact absurd this (by simp)
      rw [if_pos hread]
      rw [markMults_getD limit p T (by omega) i, hTlen]
      constructor
      · intro h
        by_cases hcond : (p * p ≤ i ∧ i ≤ limit ∧ p ∣ i) ∧ i < limit + 1
        · exact ⟨p, hpprime, by omega, hcond.1.1, hcond.1.2.2⟩
        · rw [if_neg hcond] at h
          obtain ⟨q, hq, hlt, hsq, hdvd⟩ := hTchar i hi |>.mp h
          exact ⟨q, hq, by omega, hsq, hdvd⟩
      · rintro ⟨q, hq, hlt, hsq, hdvd⟩
        rcases Nat.lt_succ_iff_lt_or_eq.mp (by omega : q < p + 1) with hqlt | hqeq
        · by_cases hcond : (p * p ≤ i ∧ i ≤ limit ∧ p ∣ i) ∧ i < limit + 1
          · rw [if_pos hcond]
          · rw [if_neg hcond]
            exact (hTchar i hi).mpr ⟨q, hq, hqlt, hsq, hdvd⟩
        · have hsq' : p * p ≤ i := by rw [← hqeq]; exact hsq
          have hdvd' : p ∣ i := by rw [← hqeq]; exact hdvd
          rw [if_pos ⟨⟨hsq', hi, hdvd'⟩, by omega⟩]
    · -- the table already holds false at p: p is composite, the pass is skipped
      have hread' : T.getD p false = false := by
        revert hread
        cases T.getD p false <;> simp
      have hnp : ¬ Nat.Prime p := by
        have hmk : markedBelow p p := hTp.mp hread'
        exact (marked_self_iff p (by omega)).mp hmk
      rw [if_neg hread]
      rw [hTchar i hi]
      constructor
      · rintro ⟨q, hq, hlt, hsq, hdvd⟩
        exact ⟨q, hq, by omega, hsq, hdvd⟩
      · rintro ⟨q, hq, hlt, hsq, hdvd⟩
        rcases Nat.lt_succ_iff_lt_or_eq.mp (by omega : q < p + 1) with hqlt | hqeq
        · exact ⟨q, hq, hqlt, hsq, hdvd⟩
        · exact absurd (hqeq ▸ hq) hnp

theorem sieveTableB_eq_foldl (limit B : ℕ) :
    sieveTableB limit B = (List.range' 2 (B - 1)).foldl (markPass limit) (sieveInit limit) := by
  unfold sieveTableB
  rw [stepRange_one, show B + 1 - 2 = B - 1 by omega]

theorem sieveTable_getD_iff (limit : ℕ) (h2 : 2 ≤ limit) (i : ℕ) (hi : i ≤ limit) :
    ((sieveTable limit).getD i false = false ↔ markedBelow (Nat.sqrt limit + 1) i) := by
  have hsq1 : 1 ≤ Nat.sqrt limit := Nat.le_sqrt.mpr (by omega)
  have h := sieve_invariant limit (Nat.sqrt limit - 1) (by omega) i hi
  rw [show 2 + (Nat.sqrt limit - 1) = Nat.sqrt limit + 1 by omega] at h
  unfold sieveTable
  rw [sieveBound_eq, sieveTableB_eq_foldl]
  exact h

theorem sieveTable_true_iff (limit : ℕ) (h2 : 2 ≤ limit) (i : ℕ) (hi2 : 2 ≤ i)
    (hil : i ≤ limit) : ((sieveTable limit).getD i false = true ↔ Nat.Prime i) := by
  have hchar := sieveTable_getD_iff limit h2 i hil
  have hbool : ((sieveTable limit).getD i false = true) ↔
      ¬ ((sieveTable limit).getD i false = false) := by
    cases (sieveTable limit).getD i false <;> simp
  rw [hbool, hchar]
  constructor
  · intro hnm
    by_contra hnp
    refine hnm ⟨i.minFac, Nat.minFac_prime (by omega), ?_, ?_, Nat.minFac_dvd i⟩
    · have hsq : i.minFac * i.minFac ≤ i := by
        have := Nat.minFac_sq_le_self (by omega : 0 < i) hnp
        simpa [Nat.pow_two] using this
      exact Nat.lt_succ_of_le (Nat.le_sqrt.mpr (by omega))
    · have := Nat.minFac_sq_le_self (by omega : 0 < i) hnp
      simpa [Nat.pow_two] using this
  · intro hprime
    rintro ⟨q, hq, hlt, hsq, hdvd⟩
    rcases Nat.Prime.eq_one_or_self_of_dvd hprime q hdvd with h1 | h1
    · exact absurd h1 (Nat.Prime.ne_one hq)
    · have hii : i * i ≤ i := by rw [h1] at hsq; exact hsq
      have : i ≤ 1 := by
        rcases Nat.eq_zero_or_pos i with h0 | h0
        · omega
        · exact Nat.le_of_mul_le_mul_left (by omega) h0
      omega

/-! ### The collection loop -/

theorem collect_spec (t : List Bool) :
    ∀ (L : List ℕ) (c : ℕ) (b : ℕ → ℤ),
      (L.foldl (collectStep t) (c, b)).1
          = c + (L.filter (fun i => t.getD i false)).length
      ∧ (∀ j, (j < c ∨ c + (L.filter (fun i => t.getD i false)).length ≤ j) →
          (L.foldl (collectStep t) (c, b)).2 j = b j)
      ∧ (∀ j (h : j < (L.filter (fun i => t.getD i false)).length),
          (L.foldl (collectStep t) (c, b)).2 (c + j)
            = (((L.filter (fun i => t.getD i false)).get ⟨j, h⟩ : ℕ) : ℤ)) := by
  intro L
  induction L with
  | nil =>
    intro c b
    refine ⟨rfl, fun j _ => rfl, fun j h => ?_⟩
    simp at h
  | cons a L ih =>
    intro c b
    by_cases ha : t.getD a false = true
    · have hstep : collectStep t (c, b) a
          = (c + 1, fun j => if j = c then (a : ℤ) else b j) := by
        unfold collectStep
        rw [if_pos ha]
      have hfilter : (a :: L).filter (fun i => t.getD i false)
          = a :: L.filter (fun i => t.getD i false) :=
        List.filter_cons_of_pos ha
      obtain ⟨ih1, ih2, ih3⟩ := ih (c + 1) (fun j => if j = c then (a : ℤ) else b j)
      rw [List.foldl_cons, hstep, hfilter]
      refine ⟨by rw [ih1]; simp [List.length_cons]; omega, ?_, ?_⟩
      · intro j hj
        rw [List.length_cons] at hj
        rw [ih2 j (by omega)]
        have hjc : j ≠ c := by omega
        rw [if_neg hjc]
      · intro j h
        rw [List.length_cons] at h
        cases j with
        | zero =>
          have h0 := ih2 c (by omega)
          rw [if_pos rfl] at h0
          simpa [List.get_cons_zero] using h0
        | succ k =>
          rw [show c + (k + 1) = (c + 1) + k by omega]
          rw [ih3 k (by omega)]
          rfl
    · have ha' : t.getD a false = false := by
        revert ha
        cases t.getD a false <;> simp
      have hstep : collectStep t (c, b) a = (c, b) := by
        unfold collectStep
        rw [if_neg (by rw [ha']; simp)]
      have hfilter : (a :: L).filter (fun i => t.getD i false)
          = L.filter (fun i => t.getD i false) :=
        List.filter_cons_of_neg (by rw [ha']; simp)
      rw [List.foldl_cons, hstep, hfilter]
      exact ih c b

/-! ### Counting primes: list filter vs Finset card -/

theorem range'_two_nodup (n : ℕ) : (List.range' 2 n).Nodup :=
  List.nodup_range' 2 n

theorem filter_prime_length_eq_card (limit : ℕ) (h2 : 2 ≤ limit) :
    ((List.range' 2 (limit - 1)).filter (fun i => decide (Nat.Prime i))).length
      = ((Finset.Icc 2 limit).filter Nat.Prime).card := by
  have hnd : ((List.range' 2 (limit - 1)).filter (fun i => decide (Nat.Prime i))).Nodup :=
    (range'_two_nodup (limit - 1)).filter _
  rw [← List.toFinset_card_of_nodup hnd]
  congr 1
  ext x
  simp only [List.mem_toFinset, List.mem_filter, List.mem_range'_1, Finset.mem_filter,
    Finset.mem_Icc, decide_eq_true_eq]
  constructor
  · rintro ⟨⟨hx1, hx2⟩, hp⟩
    exact ⟨⟨hx1, by omega⟩, hp⟩
  · rintro ⟨⟨hx1, hx2⟩, hp⟩
    exact ⟨⟨hx1, by omega⟩, hp⟩

theorem bool_eq_decide {b : Bool} {P : Prop} [Decidable P] (h : b = true ↔ P) :
    b = decide P := by
  cases b
  · simp only [false_eq_decide_iff]
    intro hp
    exact absurd (h.mpr hp) (by simp)
  · simp only [true_eq_decide_iff]
    exact h.mp rfl

theorem sieve_filter_eq (limit : ℕ) (h2 : 2 ≤ limit) :
    (stepRange 2 limit 1).filter (fun i => (sieveTable limit).getD i false)
      = primesList limit := by
  unfold primesList
  rw [stepRange_one, show limit + 1 - 2 = limit - 1 by omega]
  apply List.filter_congr
  intro x hx
  rw [List.mem_range'_1] at hx
  exact bool_eq_decide (sieveTable_true_iff limit h2 x hx.1 (by omega))

theorem primesList_pairwise (limit : ℕ) : (primesList limit).Pairwise (· < ·) :=
  List.Pairwise.sublist (List.filter_sublist _) (List.pairwise_lt_range' 2 (limit - 1))

theorem primesList_mem_iff (limit : ℕ) (h2 : 2 ≤ limit) (x : ℕ) :
    x ∈ primesList limit ↔ 2 ≤ x ∧ x ≤ limit ∧ Nat.Prime x := by
  unfold primesList
  rw [List.mem_filter, List.mem_range'_1, decide_eq_true_eq]
  constructor
  · rintro ⟨⟨h1, hlt⟩, h3⟩
    exact ⟨h1, by omega, h3⟩
  · rintro ⟨h1, hle, h3⟩
    exact ⟨⟨h1, by omega⟩, h3⟩

theorem sieve_rs_master (n : ℤ) (hn : 2 ≤ n) (buf : ℕ → ℤ) :
    (sieve_rs n buf).1 = ((primesList n.toNat).length : ℤ)
    ∧ (∀ j (h : j < (primesList n.toNat).length),
        (sieve_rs n buf).2 j = (((primesList n.toNat).get ⟨j, h⟩ : ℕ) : ℤ))
    ∧ (∀ j, (primesList n.toNat).length ≤ j → (sieve_rs n buf).2 j = buf j) := by
  have h2 : 2 ≤ n.toNat := by omega
  have hunfold : sieve_rs n buf
      = (((( (stepRange 2 n.toNat 1).foldl (collectStep (sieveTable n.toNat)) (0, buf)).1 : ℕ) : ℤ),
        ((stepRange 2 n.toNat 1).foldl (collectStep (sieveTable n.toNat)) (0, buf)).2) := by
    unfold sieve_rs
    rw [if_neg (by omega)]
  obtain ⟨hc1, hc2, hc3⟩ :=
    collect_spec (sieveTable n.toNat) (stepRange 2 n.toNat 1) 0 buf
  rw [sieve_filter_eq n.toNat h2] at hc1 hc2 hc3
  refine ⟨?_, ?_, ?_⟩
  · rw [hunfold]
    simp only
    rw [hc1, Nat.zero_add]
  · intro j h
    rw [hunfold]
    simp only
    have := hc3 j h
    rw [Nat.zero_add] at this
    exact this
  · intro j hj
    rw [hunfold]
    simp only
    exact hc2 j (by omega)

/-! ### Claim C1: functional correctness of sieve_rs -/

/-- C1: for every n at least 2, sieve_rs(n, primes_out) returns a count equal to
the number of primes in the interval from 2 to n, and the first count slots of
the buffer hold exactly the primes of that interval: strictly increasing, every
element in range, every element prime, and every prime of the interval present. -/
theorem sieve_rs_correct (n : ℤ) (buf : ℕ → ℤ) (hn : 2 ≤ n) :
    (sieve_rs n buf).1 = (((Finset.Icc 2 n.toNat).filter Nat.Prime).card : ℤ)
    ∧ (∀ j k : ℕ, j < k → (k : ℤ) < (sieve_rs n buf).1 →
        (sieve_rs n buf).2 j < (sieve_rs n buf).2 k)
    ∧ (∀ j : ℕ, (j : ℤ) < (sieve_rs n buf).1 →
        ∃ p : ℕ, Nat.Prime p ∧ 2 ≤ p ∧ (p : ℤ) ≤ n ∧ (sieve_rs n buf).2 j = (p : ℤ))
    ∧ (∀ p : ℕ, Nat.Prime p → (p : ℤ) ≤ n →
        ∃ j : ℕ, (j : ℤ) < (sieve_rs n buf).1 ∧ (sieve_rs n buf).2 j = (p : ℤ)) := by
  obtain ⟨hm1, hm2, hm3⟩ := sieve_rs_master n hn buf
  have h2 : 2 ≤ n.toNat := by omega
  have htn : (n.toNat : ℤ) = n := Int.toNat_of_nonneg (by omega)
  have hlen : (primesList n.toNat).length = ((Finset.Icc 2 n.toNat).filter Nat.Prime).card := by
    unfold primesList
    exact filter_prime_length_eq_card n.toNat h2
  refine ⟨by rw [hm1, hlen], ?_, ?_, ?_⟩
  · intro j k hjk hk
    have hk' : k < (primesList n.toNat).length := by
      rw [hm1] at hk
      exact_mod_cast hk
    have hj' : j < (primesList n.toNat).length := lt_trans hjk hk'
    rw [hm2 j hj', hm2 k hk']
    have hpair := primesList_pairwise n.toNat
    rw [List.pairwise_iff_getElem] at hpair
    have hlt := hpair j k hj' hk' hjk
    rw [List.get_eq_getElem, List.get_eq_getElem]
    exact_mod_cast hlt
  · intro j hj
    have hj' : j < (primesList n.toNat).length := by
      rw [hm1] at hj
      exact_mod_cast hj
    have hmem : (primesList n.toNat).get ⟨j, hj'⟩ ∈ primesList n.toNat :=
      List.get_mem _ _ _
    rw [primesList_mem_iff _ h2] at hmem
    refine ⟨(primesList n.toNat).get ⟨j, hj'⟩, hmem.2.2, hmem.1, ?_, hm2 j hj'⟩
    have hcast : (((primesList n.toNat).get ⟨j, hj'⟩ : ℕ) : ℤ) ≤ (n.toNat : ℤ) := by
      exact_mod_cast hmem.2.1
    rw [htn] at hcast
    exact hcast
  · intro p hp hpn
    have hple : p ≤ n.toNat := by
      rw [← htn] at hpn
      exact_mod_cast hpn
    have hmem : p ∈ primesList n.toNat :=
      (primesList_mem_iff _ h2 p).mpr ⟨hp.two_le, hple, hp⟩
    obtain ⟨⟨j, hjlt⟩, hget⟩ := List.mem_iff_get.mp hmem
    refine ⟨j, ?_, ?_⟩
    · rw [hm1]
      exact_mod_cast hjlt
    · rw [hm2 j hjlt, hget]

/-- C1 witness at n = 10 with the zero buffer. -/
theorem sieve_rs_correct_witness :
    (2 : ℤ) ≤ 10
    ∧ ((sieve_rs 10 (fun _ => 0)).1
          = (((Finset.Icc 2 (10 : ℤ).toNat).filter Nat.Prime).card : ℤ)
      ∧ (∀ j k : ℕ, j < k → (k : ℤ) < (sieve_rs 10 (fun _ => 0)).1 →
          (sieve_rs 10 (fun _ => 0)).2 j < (sieve_rs 10 (fun _ => 0)).2 k)
      ∧ (∀ j : ℕ, (j : ℤ) < (sieve_rs 10 (fun _ => 0)).1 →
          ∃ p : ℕ, Nat.Prime p ∧ 2 ≤ p ∧ (p : ℤ) ≤ 10
            ∧ (sieve_rs 10 (fun _ => 0)).2 j = (p : ℤ))
      ∧ (∀ p : ℕ, Nat.Prime p → (p : ℤ) ≤ 10 →
          ∃ j : ℕ, (j : ℤ) < (sieve_rs 10 (fun _ => 0)).1
            ∧ (sieve_rs 10 (fun _ => 0)).2 j = (p : ℤ))) :=
  ⟨by decide, sieve_rs_correct 10 (fun _ => 0) (by decide)⟩

/-! ### Claim C3: the frame property of the output buffer -/

/-- C3: sieve_rs writes only to buffer slots below the returned count: every
slot at an index at least count is returned unchanged. -/
theorem sieve_rs_frame (n : ℤ) (buf : ℕ → ℤ) (j : ℕ)
    (h : (sieve_rs n buf).1 ≤ (j : ℤ)) : (sieve_rs n buf).2 j = buf j := by
  by_cases hn : 2 ≤ n
  · obtain ⟨hm1, _, hm3⟩ := sieve_rs_master n hn buf
    apply hm3
    rw [hm1] at h
    exact_mod_cast h
  · have heq : sieve_rs n buf = (0, buf) := by
      unfold sieve_rs
      rw [if_pos (by omega)]
    rw [heq]

/-- C3 witness at n = 10, slot 4 (the count is 4, so slot 4 is untouched). -/
theorem sieve_rs_frame_witness :
    (sieve_rs 10 (fun _ => 37)).1 ≤ ((4 : ℕ) : ℤ)
    ∧ (sieve_rs 10 (fun _ => 37)).2 4 = (fun _ => (37 : ℤ)) 4 :=
  ⟨by decide, sieve_rs_frame 10 (fun _ => 37) 4 (by decide)⟩

/-! ### Claim C5: inputs below 2, negative inputs included -/

/-- C5: for every n below 2, negative n included, sieve_rs returns count 0 and
leaves the buffer untouched. -/
theorem sieve_rs_below_two (n : ℤ) (buf : ℕ → ℤ) (h : n < 2) :
    sieve_rs n buf = (0, buf) := by
  unfold sieve_rs
  rw [if_pos h]

/-- C5 witness at n = -7. -/
theorem sieve_rs_below_two_witness :
    (-7 : ℤ) < 2 ∧ sieve_rs (-7) (fun _ => 11) = (0, fun _ => 11) :=
  ⟨by decide, sieve_rs_below_two (-7) (fun _ => 11) (by decide)⟩

/-! ### Claim C9: the freshly initialized table -/

/-- C9 counterexample: the claim asserts that immediately after initialization
entries 0 and 1 of the table are explicitly false; in the code the fresh table
is all-true, so already at n = 2 entry 0 is true, not false. -/
theorem sieveInit_entry_zero_not_false :
    ¬ ((sieveInit (2 : ℤ).toNat).getD 0 false = false) := by decide

/-- C9 amended: immediately after initialization and before the marking pass,
the table of size n + 1 has every entry true; indices 0 and 1 are not cleared
(the collection loop starting at 2 makes that harmless). -/
theorem sieveInit_all_true (n : ℤ) (hn : 2 ≤ n) :
    (sieveInit n.toNat).length = n.toNat + 1
    ∧ ∀ i, i ≤ n.toNat → (sieveInit n.toNat).getD i false = true := by
  refine ⟨sieveInit_length _, fun i hi => ?_⟩
  unfold sieveInit
  exact getD_replicate _ _ _ _ (by omega)

/-- C9 amended witness at n = 2. -/
theorem sieveInit_all_true_witness :
    (2 : ℤ) ≤ 2
    ∧ ((sieveInit (2 : ℤ).toNat).length = (2 : ℤ).toNat + 1
      ∧ ∀ i, i ≤ (2 : ℤ).toNat → (sieveInit (2 : ℤ).toNat).getD i false = true) :=
  ⟨by decide, sieveInit_all_true 2 (by decide)⟩

/-! ### Claim C10: all table accesses are in bounds -/

/-- C10: every index at which sieve_rs reads or writes its boolean table is at
least 2, at most n, and below the table length n + 1, so the out-of-bounds
panic branch of the Rust vector indexing is unreachable. -/
theorem sieve_rs_accesses_in_bounds (n : ℤ) (a : ℕ) (ha : a ∈ sieveAccesses n) :
    2 ≤ a ∧ a ≤ n.toNat ∧ a < (sieveTable n.toNat).length := by
  rw [sieveTable_length]
  unfold sieveAccesses at ha
  by_cases hn : n < 2
  · rw [if_pos hn] at ha
    simp at ha
  · rw [if_neg hn] at ha
    simp only [List.mem_append] at ha
    have hB : sieveBound n.toNat = Nat.sqrt n.toNat := sieveBound_eq _
    have hsqle : Nat.sqrt n.toNat ≤ n.toNat := Nat.sqrt_le_self _
    rcases ha with (ha | ha) | ha
    · rw [mem_stepRange (by omega)] at ha
      rw [hB] at ha
      omega
    · rw [List.mem_flatten] at ha
      obtain ⟨l, hl, hal⟩ := ha
      rw [List.mem_map] at hl
      obtain ⟨p, hp, rfl⟩ := hl
      rw [mem_stepRange (by omega)] at hp
      have hp2 : 2 ≤ p := hp.1
      rw [mem_stepRange (by omega)] at hal
      have hpp : 4 ≤ p * p := Nat.mul_le_mul hp2 hp2
      omega
    · rw [mem_stepRange (by omega)] at ha
      omega

/-- C10 witness: the access at index 4 for n = 10. -/
theorem sieve_rs_accesses_in_bounds_witness :
    (4 ∈ sieveAccesses 10)
    ∧ (2 ≤ 4 ∧ 4 ≤ (10 : ℤ).toNat ∧ 4 < (sieveTable (10 : ℤ).toNat).length) :=
  ⟨by decide, sieve_rs_accesses_in_bounds 10 4 (by decide)⟩

/-! ### The trapezoid kernel -/

theorem trapezoid_foldl_ge (a h : ℚ) (L : List ℕ) :
    ∀ init : ℚ,
      init ≤ L.foldl (fun s i => s + (a + (i : ℚ) * h) * (a + (i : ℚ) * h)) init := by
  induction L with
  | nil => intro init; exact le_refl _
  | cons x L ih =>
    intro init
    calc init ≤ init + (a + (x : ℚ) * h) * (a + (x : ℚ) * h) :=
          le_add_of_nonneg_right (mul_self_nonneg _)
      _ ≤ _ := ih _

/-- C6: trapezoid_rs(a, b, 0) is exactly 0: the n = 0 case returns before any
division by n is evaluated. -/
theorem trapezoid_rs_zero_subdivisions (a b : ℚ) : trapezoid_rs a b 0 = 0 := rfl

/-- C8: for a zero-width interval the kernel returns exactly 0: the step h is
exactly (a - a) / n = 0 and the final product sum * h is exactly 0. -/
theorem trapezoid_rs_zero_width (a : ℚ) (n : ℤ) (hn : 0 < n) :
    trapezoid_rs a a n = 0 := by
  show (if usizeOfInt n = 0 then (0 : ℚ) else trapezoidLoop a a (usizeOfInt n)) = 0
  by_cases hm : usizeOfInt n = 0
  · rw [if_pos hm]
  · rw [if_neg hm]
    unfold trapezoidLoop
    simp only [sub_self, zero_div, mul_zero]

/-- C8 witness at a = 3, n = 7. -/
theorem trapezoid_rs_zero_width_witness :
    (0 : ℤ) < 7 ∧ trapezoid_rs 3 3 7 = 0 :=
  ⟨by decide, trapezoid_rs_zero_width 3 7 (by decide)⟩

/-- C7: for every positive i32 subdivision count the kernel computes exactly
the accumulation the specification prescribes, in the same order: s starts at
0.5 * (f a + f b) with f x = x * x, interior indices i = 1 to n - 1 in
increasing order each add f (a + i * h), endpoints are excluded from the loop,
and the result is s * h with h = (b - a) / n. -/
theorem trapezoid_rs_matches_spec (a b : ℚ) (n : ℤ) (h1 : 1 ≤ n) (h2 : n < 2 ^ 31) :
    trapezoid_rs a b n = trapezoid_spec a b n.toNat := by
  have hm : usizeOfInt n = n.toNat := by
    unfold usizeOfInt
    rw [Int.emod_eq_of_lt (by omega) (by omega)]
  show (if usizeOfInt n = 0 then (0 : ℚ) else trapezoidLoop a b (usizeOfInt n))
      = trapezoid_spec a b n.toNat
  rw [hm, if_neg (by omega)]
  rfl

/-- C7 witness at a = 0, b = 1, n = 2. -/
theorem trapezoid_rs_matches_spec_witness :
    ((1 : ℤ) ≤ 2 ∧ (2 : ℤ) < 2 ^ 31)
    ∧ trapezoid_rs 0 1 2 = trapezoid_spec 0 1 (2 : ℤ).toNat :=
  ⟨⟨by decide, by decide⟩, trapezoid_rs_matches_spec 0 1 2 (by decide) (by decide)⟩

/-- C4 counterexample: the claim says a negative subdivision count returns 0.0;
in the code the i32-to-usize cast wraps, so at a = 0, b = 1, n = -1 the kernel
runs the loop with 2^64 - 1 subintervals and returns a positive value, not 0. -/
theorem trapezoid_rs_negative_not_zero : trapezoid_rs 0 1 (-1) ≠ 0 := by
  have hm : usizeOfInt (-1) = 2 ^ 64 - 1 := by decide
  show (if usizeOfInt (-1) = 0 then (0 : ℚ) else trapezoidLoop 0 1 (usizeOfInt (-1))) ≠ 0
  rw [hm, if_neg (by norm_num)]
  unfold trapezoidLoop
  apply ne_of_gt
  apply mul_pos
  · have hhalf : (0 : ℚ) < 1 / 2 * (0 * 0 + 1 * 1) := by norm_num
    calc (0 : ℚ) < 1 / 2 * (0 * 0 + 1 * 1) := hhalf
      _ ≤ _ := trapezoid_foldl_ge 0 _ _ _
  · apply div_pos (by norm_num)
    have : (0 : ℚ) < ((2 ^ 64 - 1 : ℕ) : ℚ) := by
      rw [Nat.cast_pos]
      norm_num
    exact this

/-- C4 amended: for a negative i32 subdivision count the cast n as usize wraps
modulo 2^64, so the kernel treats n as the huge count 2^64 + n and runs the
full accumulation loop with that count instead of returning the degenerate 0.0
(only n = 0 returns 0.0; at n = -1 the result is in fact positive). -/
theorem trapezoid_rs_negative_wraps (a b : ℚ) (n : ℤ) (hlo : -(2 ^ 31) ≤ n)
    (hneg : n < 0) :
    usizeOfInt n = (2 ^ 64 + n).toNat
    ∧ usizeOfInt n ≠ 0
    ∧ trapezoid_rs a b n = trapezoidLoop a b ((2 ^ 64 + n).toNat) := by
  have hmod : n % 2 ^ 64 = 2 ^ 64 + n := by
    have h1 : (n + 2 ^ 64 * 1) % 2 ^ 64 = n % 2 ^ 64 :=
      Int.add_mul_emod_self_left n (2 ^ 64) 1
    have h2 : (n + 2 ^ 64 * 1) % 2 ^ 64 = n + 2 ^ 64 * 1 :=
      Int.emod_eq_of_lt (by omega) (by omega)
    omega
  have hcast : usizeOfInt n = (2 ^ 64 + n).toNat := by
    unfold usizeOfInt
    rw [hmod]
  have hne : usizeOfInt n ≠ 0 := by
    rw [hcast]
    omega
  refine ⟨hcast, hne, ?_⟩
  have hfinal : trapezoid_rs a b n = trapezoidLoop a b (usizeOfInt n) := by
    simp only [trapezoid_rs]
    rw [if_neg hne]
  rw [hfinal, hcast]

/-! ### Claim C2: the floating-point square-root bound is exact -/

theorem filter_le_range' (t : ℕ) :
    ∀ n s, (List.range' s n).filter (fun x => decide (x ≤ t))
      = List.range' s (min n (t + 1 - s)) := by
  intro n
  induction n with
  | zero => intro s; simp
  | succ m ih =>
    intro s
    rw [List.range'_succ]
    by_cases hst : s ≤ t
    · rw [List.filter_cons_of_pos (by simpa using hst), ih (s + 1)]
      rw [show min (m + 1) (t + 1 - s) = (min m (t + 1 - (s + 1))) + 1 by omega]
      rw [List.range'_succ]
    · rw [List.filter_cons_of_neg (by simpa using hst)]
      have hnil : (List.range' (s + 1) m).filter (fun x => decide (x ≤ t)) = [] := by
        rw [List.filter_eq_nil_iff]
        intro x hx
        rw [List.mem_range'_1] at hx
        simp only [decide_eq_true_eq]
        omega
      rw [hnil, show min (m + 1) (t + 1 - s) = 0 by omega, List.range'_zero]

theorem sieveTableB_sqrt_eq_PP (limit : ℕ) (h2 : 2 ≤ limit) :
    sieveTableB limit (Nat.sqrt limit) = sieveTablePP limit := by
  unfold sieveTableB sieveTablePP
  suffices hlist : stepRange 2 (Nat.sqrt limit) 1
      = (stepRange 2 limit 1).filter (fun p => decide (p * p ≤ limit)) by
    rw [hlist]
  rw [stepRange_one, stepRange_one]
  have hcong : (List.range' 2 (limit + 1 - 2)).filter (fun p => decide (p * p ≤ limit))
      = (List.range' 2 (limit + 1 - 2)).filter (fun p => decide (p ≤ Nat.sqrt limit)) := by
    apply List.filter_congr
    intro x _
    rw [decide_eq_decide]
    exact Nat.le_sqrt.symm
  rw [hcong, filter_le_range' (Nat.sqrt limit) (limit + 1 - 2) 2]
  have hle := Nat.sqrt_le_self limit
  rw [show min (limit + 1 - 2) (Nat.sqrt limit + 1 - 2) = Nat.sqrt limit + 1 - 2 by omega]

/-- C2: model of the correctly rounded f64 square root of n.  The rounded
value is s = m / 2 ^ d with normalized mantissa (2 ^ 52 <= m); correct rounding
gives the half-ulp bound (s - e)^2 <= n <= (s + e)^2 with e = 1 / 2 ^ (d + 1),
written here with denominators cleared: (2m - 1)^2 <= n * 2 ^ (2d + 2) and
n * 2 ^ (2d + 2) <= (2m + 1)^2.  Conclusion: the truncation m / 2 ^ d (the
usize cast of the f64 square root) equals the integer square root of n, and
the marking loop bounded by it marks exactly the same table as the loop driven
by the integer-only test p * p <= n. -/
theorem sieve_float_bound_exact (n d m : ℕ) (h2 : 2 ≤ n) (hn : n < 2 ^ 31)
    (hm : 2 ^ 52 ≤ m)
    (hr1 : (2 * m - 1) ^ 2 ≤ n * 2 ^ (2 * d + 2))
    (hr2 : n * 2 ^ (2 * d + 2) ≤ (2 * m + 1) ^ 2) :
    m / 2 ^ d = Nat.sqrt n ∧ sieveTableB n (m / 2 ^ d) = sieveTablePP n := by
  have hk1 : Nat.sqrt n * Nat.sqrt n ≤ n := Nat.sqrt_le n
  have hk2 : n < (Nat.sqrt n + 1) * (Nat.sqrt n + 1) := Nat.lt_succ_sqrt n
  have hk46 : Nat.sqrt n ≤ 46340 := by
    have hlt : Nat.sqrt n < 46341 := Nat.sqrt_lt.mpr (by omega)
    omega
  have hD0 : 0 < 2 ^ d := Nat.pos_pow_of_pos d (by omega)
  have hpow : (2 : ℕ) ^ (2 * d + 2) = 4 * (2 ^ d * 2 ^ d) := by
    rw [show 2 * d + 2 = d + (d + 2) by omega, pow_add, pow_add]
    ring
  rw [hpow] at hr1 hr2
  rw [pow_two] at hr1 hr2
  set k := Nat.sqrt n with hkdef
  set D := 2 ^ d with hDdef
  -- lower bound: k * D <= m
  have hlow : k * D ≤ m := by
    by_contra hcon
    push_neg at hcon
    have e1 : (2 * (k * D)) * (2 * (k * D)) = (k * k) * (4 * (D * D)) := by ring
    have e2 : (k * k) * (4 * (D * D)) ≤ n * (4 * (D * D)) :=
      Nat.mul_le_mul_right _ hk1
    have hkE : (2 * (k * D)) * (2 * (k * D)) ≤ (2 * m + 1) * (2 * m + 1) := by
      rw [e1]
      exact le_trans e2 hr2
    have hle : 2 * (k * D) ≤ 2 * m + 1 := Nat.mul_self_le_mul_self_iff.mp hkE
    omega
  -- the grid is fine: D is at least 46341
  have hDbig : 46341 ≤ D := by
    by_contra hDsmall
    push_neg at hDsmall
    have h2m : 2 ^ 53 - 1 ≤ 2 * m - 1 := by omega
    have hms : (2 ^ 53 - 1) * (2 ^ 53 - 1) ≤ (2 * m - 1) * (2 * m - 1) :=
      Nat.mul_le_mul h2m h2m
    have hDD : D * D ≤ 46340 * 46340 := Nat.mul_le_mul (by omega) (by omega)
    have hchain : n * (4 * (D * D)) ≤ (2 ^ 31 - 1) * (4 * (46340 * 46340)) :=
      Nat.mul_le_mul (by omega) (by omega)
    have hnum : (2 ^ 31 - 1) * (4 * (46340 * 46340)) < (2 ^ 53 - 1) * (2 ^ 53 - 1) := by
      norm_num
    linarith [hr1, hms, hchain, hnum]
  -- upper bound: m < (k + 1) * D
  have hup : m < (k + 1) * D := by
    by_contra hcon
    push_neg at hcon
    have hnb : (n : ℤ) ≤ ((k : ℤ) + 1) * ((k : ℤ) + 1) - 1 := by
      have hcast : (n : ℤ) < ((k : ℤ) + 1) * ((k : ℤ) + 1) := by exact_mod_cast hk2
      linarith
    have hmZ : ((k : ℤ) + 1) * (D : ℤ) ≤ (m : ℤ) := by exact_mod_cast hcon
    have hr1Z : (2 * (m : ℤ) - 1) * (2 * (m : ℤ) - 1) ≤ (n : ℤ) * (4 * ((D : ℤ) * (D : ℤ))) := by
      have hcast : ((2 * m - 1 : ℕ) : ℤ) = 2 * (m : ℤ) - 1 := by
        have h1m : 1 ≤ 2 * m := by omega
        omega
      calc (2 * (m : ℤ) - 1) * (2 * (m : ℤ) - 1)
          = ((2 * m - 1 : ℕ) : ℤ) * ((2 * m - 1 : ℕ) : ℤ) := by rw [hcast]
        _ ≤ (n : ℤ) * (4 * ((D : ℤ) * (D : ℤ))) := by exact_mod_cast hr1
    have hDZ1 : (1 : ℤ) ≤ (D : ℤ) := by exact_mod_cast hD0
    have hKD : ((k : ℤ) + 1) ≤ (D : ℤ) := by
      have : (k : ℕ) + 1 ≤ D := by omega
      exact_mod_cast this
    have hX : 2 * (((k : ℤ) + 1) * (D : ℤ)) - 1 ≤ 2 * (m : ℤ) - 1 := by linarith
    have hXnn : (0 : ℤ) ≤ 2 * (((k : ℤ) + 1) * (D : ℤ)) - 1 := by nlinarith
    have hsq : (2 * (((k : ℤ) + 1) * (D : ℤ)) - 1) * (2 * (((k : ℤ) + 1) * (D : ℤ)) - 1)
        ≤ (2 * (m : ℤ) - 1) * (2 * (m : ℤ) - 1) :=
      mul_le_mul hX hX hXnn (by linarith)
    have hnb4 : (n : ℤ) * (4 * ((D : ℤ) * (D : ℤ)))
        ≤ (((k : ℤ) + 1) * ((k : ℤ) + 1) - 1) * (4 * ((D : ℤ) * (D : ℤ))) := by
      apply mul_le_mul_of_nonneg_right hnb
      positivity
    have hchain : (2 * (((k : ℤ) + 1) * (D : ℤ)) - 1) * (2 * (((k : ℤ) + 1) * (D : ℤ)) - 1)
        ≤ (((k : ℤ) + 1) * ((k : ℤ) + 1) - 1) * (4 * ((D : ℤ) * (D : ℤ))) :=
      le_trans hsq (le_trans hr1Z hnb4)
    -- expanding: 4 * D^2 + 1 <= 4 * (k + 1) * D, impossible since k + 1 <= D
    have hKDle : ((k : ℤ) + 1) * (D : ℤ) ≤ (D : ℤ) * (D : ℤ) :=
      mul_le_mul_of_nonneg_right hKD (by linarith)
    nlinarith [hchain, hKDle]
  have hdiv : m / D = k := Nat.div_eq_of_lt_le hlow hup
  refine ⟨hdiv, ?_⟩
  rw [hdiv, hkdef]
  exact sieveTableB_sqrt_eq_PP n h2

/-- C2 witness at n = 4 with the exactly representable root s = 2 = 2 ^ 52 / 2 ^ 51. -/
theorem sieve_float_bound_exact_witness :
    (2 ≤ 4 ∧ 4 < 2 ^ 31 ∧ 2 ^ 52 ≤ 2 ^ 52
      ∧ (2 * 2 ^ 52 - 1) ^ 2 ≤ 4 * 2 ^ (2 * 51 + 2)
      ∧ 4 * 2 ^ (2 * 51 + 2) ≤ (2 * 2 ^ 52 + 1) ^ 2)
    ∧ (2 ^ 52 / 2 ^ 51 = Nat.sqrt 4
      ∧ sieveTableB 4 (2 ^ 52 / 2 ^ 51) = sieveTablePP 4) :=
  ⟨⟨by decide, by decide, by decide, by decide, by decide⟩,
    sieve_float_bound_exact 4 51 (2 ^ 52) (by decide) (by decide) (by decide)
      (by decide) (by decide)⟩

/-- C4 amended witness at a = 0, b = 1, n = -1. -/
theorem trapezoid_rs_negative_wraps_witness :
    (-(2 ^ 31) ≤ (-1 : ℤ) ∧ (-1 : ℤ) < 0)
    ∧ (usizeOfInt (-1) = (2 ^ 64 + (-1 : ℤ)).toNat
      ∧ usizeOfInt (-1) ≠ 0
      ∧ trapezoid_rs 0 1 (-1) = trapezoidLoop 0 1 ((2 ^ 64 + (-1 : ℤ)).toNat)) :=
  ⟨⟨by decide, by decide⟩, trapezoid_rs_negative_wraps 0 1 (-1) (by decide) (by decide)⟩

end PyNumBench
